import Mathlib

/-!
Shallow embedding of the ConPyCon interactive console core:
`conpycon/console.py`, `conpycon/command_tree.py` and `conpycon/parser.py`.

Modelling conventions:
- Python strings are lists of characters (`Str`); Python string equality,
  slicing and `startswith` become the corresponding list operations.
- The history index of the prompt loop genuinely takes the value `-1`
  ("not browsing"), so it is an `Int`.  The cursor index is kept
  non-negative by explicit `== 0` guards in the source, so it is a `Nat`;
  every decrement in the source is behind such a guard.
- `shlex.split` can raise `ValueError` (unclosed quote); it is modelled as
  a function returning `Option`, `none` standing for the exception.
  `shlex.split`/`shlex.join` are Python standard library collaborators,
  so the prompt model takes them as parameters.
- Python exceptions are made explicit with `Except`/`Option` results.
-/

abbrev Str := List Char

/-! ## console.py module constants (lines 24-25) -/

def MAX_CMD_LEN : Nat := 1024

def MAX_HIST_LEN : Nat := 20

/-! ## `_lcp` (console.py lines 32-47) -/

/-- One test of the loop in `_lcp`: `all(s[i] == l[0][i] for s in l)`.
Positions are only queried at `i` below the minimum length of the strings,
where `getD` returns the actual character (the default is never used). -/
def lcpAllEq (l : List Str) (s0 : Str) (i : Nat) : Bool :=
  l.all (fun s => s.getD i ' ' == s0.getD i ' ')

/-- The `for i in range(min_l)` loop of `_lcp`; `rem` is the number of
iterations left (`min_l - i`).  A mismatch at position `i` returns
`l[0][:i]`; running off the loop returns `l[0][:min_l]`, reached here as
`s0.take i` with `i = min_l`. -/
def lcpLoop (l : List Str) (s0 : Str) (i : Nat) : Nat → Str
  | 0 => s0.take i
  | rem + 1 => if lcpAllEq l s0 i then lcpLoop l s0 (i + 1) rem else s0.take i

/-- `min(len(s) for s in l)`, defined for nonempty `l` by folding `min`
over the tail starting from the head length. -/
def minStrLen : List Str → Nat
  | [] => 0
  | s :: rest => rest.foldl (fun m t => min m t.length) s.length

/-- `_lcp(l)`: longest common prefix helper (console.py lines 32-47). -/
def lcp (l : List Str) : Str :=
  match l with
  | [] => []
  | s0 :: _ => lcpLoop l s0 0 (minStrLen l)

/-! ## `CommandNode` (command_tree.py) -/

inductive CommandNode where
  | mk (name : Str) (children : List CommandNode)

def CommandNode.name : CommandNode → Str
  | .mk n _ => n

def CommandNode.children : CommandNode → List CommandNode
  | .mk _ cs => cs

mutual

def nsize : CommandNode → Nat
  | .mk _ cs => 1 + nsizeList cs

def nsizeList : List CommandNode → Nat
  | [] => 0
  | c :: cs => nsize c + nsizeList cs

end

theorem nsizeList_append (a b : List CommandNode) :
    nsizeList (a ++ b) = nsizeList a + nsizeList b := by
  induction a with
  | nil => simp [nsizeList]
  | cons c cs ih => simp [nsizeList, ih]; omega

theorem nsize_children_lt (c : CommandNode) : nsizeList c.children < nsize c := by
  cases c with
  | mk n cs => simp [nsize, CommandNode.children]

/-- The `while q:` loop of `CommandNode.find` (command_tree.py lines 31-41).
The source pops `q[0]`, and pushes `cur.children[::-1]` one element at a
time at the front of the queue, which leaves exactly
`cur.children ++ rest` as the new queue. -/
def findAux (name : Str) (q : List CommandNode) : Option CommandNode :=
  match q with
  | [] => none
  | cur :: rest =>
    if cur.name = name then some cur
    else findAux name (cur.children ++ rest)
termination_by nsizeList q
decreasing_by
  simp only [nsizeList_append, nsizeList]
  exact Nat.add_lt_add_right (nsize_children_lt _) _

/-- `CommandNode.find(name)` (command_tree.py lines 24-42): the traversal
starts from the queue `[self]`. -/
def CommandNode.find (t : CommandNode) (name : Str) : Option CommandNode :=
  findAux name [t]

/-! ## Tab completion walk (console.py lines 377-427, the Tab branch) -/

/-- `[c for c in cur_node.children if c.name.startswith(token)]`. -/
def nodeMatches (cur : CommandNode) (token : Str) : List CommandNode :=
  cur.children.filter (fun c => token.isPrefixOf c.name)

/-- The `for token in parse:` loop of the Tab branch (console.py lines
390-398): computes the final value of `match_nodes`.  On an intermediate
token with no matches the loop breaks with `match_nodes = []`; otherwise
it descends into the first match.  The descent performed on the final
token does not affect `match_nodes`. -/
def tabMatches (cur : CommandNode) : List Str → List CommandNode
  | [] => []
  | token :: rest =>
    let ms := nodeMatches cur token
    match rest with
    | [] => ms
    | _ :: _ =>
      match ms with
      | [] => []
      | m :: _ => tabMatches m rest

inductive CompletionResult where
  | noMatch
  | singleMatch (full : Str)
  | multipleMatches (names : List Str) (fill : Str)
deriving DecidableEq

/-- The classification the Tab branch applies to the final `match_nodes`
(console.py lines 400-427): no match leaves the line alone; a unique match
autofills with the full child name; several matches list all names and
autofill their longest common prefix. -/
def complete (root : CommandNode) (parse : List Str) : CompletionResult :=
  match tabMatches root parse with
  | [] => .noMatch
  | [m] => .singleMatch m.name
  | ms => .multipleMatches (ms.map CommandNode.name) (lcp (ms.map CommandNode.name))

/-! ## The prompt line editor (console.py `_prompt`, lines 304-529) -/

inductive Key where
  | char (c : Char)
  | backspace
  | tab
  | up
  | down
  | left
  | right
deriving DecidableEq

/-- Read-only context of one prompt session: the console history and
command tree, plus the `shlex` collaborators.  `shlexSplit` returns
`none` when `shlex.split` raises `ValueError`. -/
structure PromptCtx where
  history : List Str
  rootNode : CommandNode
  shlexSplit : Str → Option (List Str)
  shlexJoin : List Str → Str

/-- The mutable locals of `_prompt`: `cmd`, `cmd_idx`, `cmd_cpy`,
`hist_idx` (console.py lines 315-325). -/
structure PromptState where
  cmd : Str
  cmdIdx : Nat
  cmdCpy : Str
  histIdx : Int
deriving DecidableEq

def initPromptState : PromptState :=
  { cmd := [], cmdIdx := 0, cmdCpy := [], histIdx := -1 }

/-- The Tab branch body after tokenization (console.py lines 383-427):
checks for an empty token list, runs the token walk (`tabMatches`) and
applies the resulting autofill to the buffer.  A unique match replaces
the final token with the full child name, rejoins, appends a space and
puts the cursor at the end; several matches autofill their longest
common prefix when it is non-empty and in either case put the cursor at
the end; no match leaves the state unchanged. -/
def tabFill (ctx : PromptCtx) (s : PromptState) (parse : List Str) : PromptState :=
  if parse.length = 0 then s
  else
    match tabMatches ctx.rootNode parse with
    | [] => s
    | [m] =>
      let parse1 := parse.set (parse.length - 1) m.name
      let cmd1 := ctx.shlexJoin parse1 ++ [' ']
      { s with cmd := cmd1, cmdIdx := cmd1.length }
    | ms =>
      let names := ms.map CommandNode.name
      let fill := lcp names
      let cmd1 := if 0 < fill.length
                  then ctx.shlexJoin (parse.set (parse.length - 1) fill)
                  else s.cmd
      { s with cmd := cmd1, cmdIdx := cmd1.length }

/-- One iteration of the `_prompt` input loop for an editing key: the
result is `none` when the iteration raises an uncaught exception
(`shlex.split` failing inside the Tab branch).  Terminal output is a side
effect and not modelled; `Key.up`/`Key.down` read `self.history` but the
loop never writes it. -/
def promptStep (ctx : PromptCtx) (s : PromptState) (k : Key) : Option PromptState :=
  match k with
  | .backspace =>
    -- console.py lines 350-375
    if s.cmdIdx = 0 then some s
    else
      let idx := s.cmdIdx - 1
      some { s with cmdIdx := idx, cmd := s.cmd.take idx ++ s.cmd.drop (idx + 1) }
  | .tab =>
    -- console.py lines 377-427: the token walk and the autofill applied
    -- to its result live in tabFill; the source appends an empty final
    -- token when the cursor sits at the end after a trailing space
    match ctx.shlexSplit s.cmd with
    | none => none
    | some parse0 =>
      some (tabFill ctx s
        (if 0 < s.cmd.length ∧ s.cmd.getLast? = some ' ' ∧ s.cmdIdx = s.cmd.length
         then parse0 ++ [[]] else parse0))
  | .up =>
    -- console.py lines 429-458
    if s.histIdx + 1 ≥ (ctx.history.length : Int) then some s
    else
      let hIdx := s.histIdx + 1
      let cpy := if hIdx = 0 then s.cmd else s.cmdCpy
      let cmd1 := ctx.history.getD hIdx.toNat []
      some { s with histIdx := hIdx, cmdCpy := cpy, cmd := cmd1, cmdIdx := cmd1.length }
  | .down =>
    -- console.py lines 460-488
    if s.histIdx = -1 then some s
    else
      let hIdx := s.histIdx - 1
      let cmd1 := if hIdx = -1 then s.cmdCpy else ctx.history.getD hIdx.toNat []
      some { s with histIdx := hIdx, cmd := cmd1, cmdIdx := cmd1.length }
  | .right =>
    -- console.py lines 490-499
    if s.cmdIdx ≥ s.cmd.length then some s
    else some { s with cmdIdx := s.cmdIdx + 1 }
  | .left =>
    -- console.py lines 501-509
    if s.cmdIdx = 0 then some s
    else some { s with cmdIdx := s.cmdIdx - 1 }
  | .char c =>
    -- console.py lines 511-527
    if s.cmd.length ≥ MAX_CMD_LEN then some s
    else
      some { s with cmd := s.cmd.take s.cmdIdx ++ c :: s.cmd.drop s.cmdIdx,
                    cmdIdx := s.cmdIdx + 1 }

/-- Process a list of editing keys starting from state `s`. -/
def promptRunFrom (ctx : PromptCtx) (s : PromptState) : List Key → Option PromptState
  | [] => some s
  | k :: ks =>
    match promptStep ctx s k with
    | none => none
    | some s1 => promptRunFrom ctx s1 ks

/-- Process a list of editing keys from the fresh state of `_prompt`. -/
def promptRun (ctx : PromptCtx) (ks : List Key) : Option PromptState :=
  promptRunFrom ctx initPromptState ks

/-! ## The history push of the run loop (console.py lines 116-121) -/

/-- The characters Python `str.strip()` removes by default. -/
def pyIsSpace (c : Char) : Bool :=
  c = ' ' || c = '\t' || c = '\n' || c = '\r' || c = '\x0b' || c = '\x0c'

/-- `cmd_str.strip()`: drop whitespace from both ends. -/
def pyStrip (s : Str) : Str :=
  ((s.dropWhile pyIsSpace).reverse.dropWhile pyIsSpace).reverse

/-- `if len(self.history) == 0 or self.history[0] != cmd_str:` insert at
the front and, past `MAX_HIST_LEN` entries, pop the last. -/
def pushHistory (history : List Str) (cmdStr : Str) : List Str :=
  if history.length = 0 ∨ history.headD [] ≠ cmdStr then
    let h := cmdStr :: history
    if h.length > MAX_HIST_LEN then h.dropLast else h
  else history

/-! ## Dispatch (console.py `_dispatch`, lines 237-272, and `run`,
lines 100-137) -/

/-- Python exceptions that can surface from a dispatch.  `dispatchErr`
stands for any other instance of the `DispatchError` hierarchy
(exceptions.py); `otherExc` for an arbitrary exception outside it. -/
inductive PyExc where
  | dispatchNotFound (cmdName : Str)
  | dispatchErr (msg : String)
  | attributeError (attr : String)
  | otherExc (excName : String)
deriving DecidableEq

/-- Which exceptions the `except DispatchError` clause of `run`
(console.py line 136) catches. -/
def PyExc.isDispatchError : PyExc → Bool
  | .dispatchNotFound _ => true
  | .dispatchErr _ => true
  | _ => false

/-- Behaviour of a bound action when invoked (`args.action()`). -/
inductive ActionBehavior where
  | ok
  | raises (e : PyExc)
deriving DecidableEq

/-- One entry of `self._parsers`: an `argparse.ArgumentParser` as
configured by `_parse_command` plus its bound action.  `parseOk args`
abstracts `parse_args`, the standard library collaborator: `false` means
`parse_args` raised `SystemExit` (a parse failure).  `errorMsg` models
the `error_msg` attribute read by `_dispatch`: `argparse` parsers never
have one, and `_parse_command` never sets one, so parsers built by this
repository always carry `none`.  `numActionGroups` is the length of
`_action_groups` (2 on a default `argparse` parser). -/
structure ArgParser where
  prog : Str
  parseOk : List Str → Bool
  action : ActionBehavior
  errorMsg : Option String
  numActionGroups : Nat

/-- The lookup loop of `_dispatch` (console.py lines 250-253): every
parser whose `prog` equals the first token overwrites `cmd_parser`, so
the last match wins. -/
def findParser (ps : List ArgParser) (name : Str) : Option ArgParser :=
  ps.foldl (fun acc c => if c.prog = name then some c else acc) none

/-- `Console._dispatch` (console.py lines 237-272).  On a parse failure
the `except SystemExit` handler reads `cmd_parser.error_msg`; when the
attribute is absent this read raises `AttributeError`.  When it is
present, the handler prints it and then iterates `_action_groups`,
reading `option_strings` off each `_group_actions` value, which is a
Python list and has no such attribute, raising `AttributeError` as soon
as there is at least one group.  On parse success the parser invokes the
bound action, with no try block around the call. -/
def dispatch (ps : List ArgParser) (cmdParse : List Str) : Except PyExc Unit :=
  match findParser ps (cmdParse.headD []) with
  | none => .error (.dispatchNotFound (cmdParse.headD []))
  | some p =>
    if p.parseOk cmdParse.tail then
      match p.action with
      | .ok => .ok ()
      | .raises e => .error e
    else
      match p.errorMsg with
      | none => .error (.attributeError "error_msg")
      | some _ =>
        if p.numActionGroups = 0 then .ok ()
        else .error (.attributeError "option_strings")

/-- Outcome of handling one committed line inside the `run` loop. -/
inductive StepOutcome where
  | continueLoop
  | exitLoop
  | crash (e : PyExc)
deriving DecidableEq

/-- The state `run` threads between committed lines. -/
structure ConsoleSt where
  history : List Str
  cmdParsers : List ArgParser

/-- `cmd_parse[0].upper()`. -/
def pyUpper (s : Str) : Str := s.map Char.toUpper

/-- The exit keywords of the run loop (console.py line 130). -/
def EXIT_KEYWORDS : List Str := ["EXIT".toList, "QUIT".toList, "Q".toList]

/-- The body of the `while self.is_running` loop of `run` (console.py
lines 108-137) for one committed line `raw`: strip, skip empty lines,
push to history, tokenize (`split cmdStr = none` models `shlex.split`
raising `ValueError`, which the source catches and skips the line on),
check exit keywords, dispatch.  `crash e` means the exception `e` escaped
`run`: the `except DispatchError` clause is the only handler around the
dispatch. -/
def runStep (split : Str → Option (List Str)) (st : ConsoleSt) (raw : Str) :
    ConsoleSt × StepOutcome :=
  let cmdStr := pyStrip raw
  if cmdStr.length = 0 then (st, .continueLoop)
  else
    let st1 : ConsoleSt := { st with history := pushHistory st.history cmdStr }
    match split cmdStr with
    | none => (st1, .continueLoop)
    | some cmdParse =>
      match cmdParse with
      | [] => (st1, .crash (.otherExc "IndexError"))
      | tok0 :: _ =>
        if pyUpper tok0 ∈ EXIT_KEYWORDS then (st1, .exitLoop)
        else
          match dispatch st1.cmdParsers cmdParse with
          | .ok _ => (st1, .continueLoop)
          | .error e =>
            if e.isDispatchError then (st1, .continueLoop) else (st1, .crash e)

/-! ## `CommandParser` schema building (parser.py lines 100-225) -/

inductive ArgKind where
  | positional
  | optionalArg
  | flag
deriving DecidableEq

/-- `Argument` (parser.py lines 59-74).  `typeName` stands for the Python
type object (`None` for flags); `metaname` defaults to `None`. -/
structure PArgument where
  argType : ArgKind
  name : String
  metaname : Option String
  typeName : Option String
  help : String
deriving DecidableEq

structure CommandParser where
  name : String
  description : String
  epilog : String
  positionals : List PArgument
  optionals : List PArgument
  flags : List PArgument
deriving DecidableEq

/-- `CommandParser.add_flag` (parser.py lines 192-225): raises
`DuplicateArgumentError(name, self.name)` when some existing flag has the
same `name` or the same `metaname`; otherwise appends an `Argument` built
without passing `metaname` through, so the stored `metaname` defaults to
`None`. -/
def addFlag (p : CommandParser) (name : String) (metaname : Option String)
    (help : String) : Except (String × String) CommandParser :=
  if p.flags.any (fun f => f.name == name || f.metaname == metaname) then
    .error (name, p.name)
  else
    .ok { p with flags := p.flags ++ [⟨.flag, name, none, none, help⟩] }

/-! ## `Namespace.__eq__` (parser.py lines 89-94) -/

/-- Attribute bag of a `Namespace` value. -/
structure PyNamespace where
  attrs : List (String × String)
deriving DecidableEq

inductive EqMethodResult where
  | notImplemented
  | pyNone
deriving DecidableEq

inductive PyOperand where
  | ns (n : PyNamespace)
  | nonNamespace
deriving DecidableEq

/-- `Namespace.__eq__` (parser.py lines 89-91): returns `NotImplemented`
for a non-`Namespace` operand; for a `Namespace` operand the body falls
off the end of the function, returning `None`. -/
def namespaceEqMethod (_self : PyNamespace) (other : PyOperand) : EqMethodResult :=
  match other with
  | .nonNamespace => .notImplemented
  | .ns _ => .pyNone

inductive PyValue where
  | vNone
  | vBool (b : Bool)
deriving DecidableEq

/-- Python evaluation of `a == b` for two `Namespace` operands: the value
returned by `a.__eq__(b)` unless that is `NotImplemented`, then the
reflected `b.__eq__(a)`, then the identity fallback `a is b`, supplied as
`sameObject`. -/
def pyEqOp (a b : PyNamespace) (sameObject : Bool) : PyValue :=
  match namespaceEqMethod a (.ns b) with
  | .pyNone => .vNone
  | .notImplemented =>
    match namespaceEqMethod b (.ns a) with
    | .pyNone => .vNone
    | .notImplemented => .vBool sameObject

/-! ## Spec-side definitions, used only to compare the source against the
wording of the spec (refinement claims C5 and C6) -/

mutual

/-- Preorder depth-first search for the first node named `name`,
children visited in their original order.  This is the traversal order
the queue manipulation of `CommandNode.find` actually implements. -/
def preorderFind (name : Str) : CommandNode → Option CommandNode
  | .mk n cs => if n = name then some (.mk n cs) else preorderFindList name cs

def preorderFindList (name : Str) : List CommandNode → Option CommandNode
  | [] => none
  | c :: cs =>
    match preorderFind name c with
    | some r => some r
    | none => preorderFindList name cs

end

theorem nsizeList_flatMap_le (q : List CommandNode) :
    nsizeList (q.flatMap CommandNode.children) ≤ nsizeList q := by
  induction q with
  | nil => simp [nsizeList]
  | cons c cs ih =>
    simp only [List.flatMap_cons, nsizeList_append, nsizeList]
    have h := nsize_children_lt c
    omega

theorem nsizeList_flatMap_lt (c : CommandNode) (rest : List CommandNode) :
    nsizeList ((c :: rest).flatMap CommandNode.children) < nsizeList (c :: rest) := by
  simp only [List.flatMap_cons, nsizeList_append, nsizeList]
  have h1 := nsizeList_flatMap_le rest
  have h2 := nsize_children_lt c
  omega

/-- Modelled from the spec: the level-order listing of a tree, used to
state the breadth-first reading of `find` that the spec claims
("returning the first node in level order, children visited in original
order"). -/
def levelOrderSpec (q : List CommandNode) : List CommandNode :=
  match q with
  | [] => []
  | c :: rest => (c :: rest) ++ levelOrderSpec ((c :: rest).flatMap CommandNode.children)
termination_by nsizeList q
decreasing_by
  exact nsizeList_flatMap_lt _ _

/-- Modelled from the spec: breadth-first lookup, the first node in level
order whose name equals the query. -/
def bfsFindSpec (t : CommandNode) (name : Str) : Option CommandNode :=
  (levelOrderSpec [t]).find? (fun c => c.name == name)

/-- Modelled from the spec: the walk over all tokens but the last,
descending into the first prefix match ("filter the current node's
children to those whose name starts with the token; if none match,
return NoMatch immediately; otherwise descend into the first matching
child"). -/
def descendSpec (cur : CommandNode) : List Str → Option CommandNode
  | [] => some cur
  | t :: rest =>
    match nodeMatches cur t with
    | [] => none
    | m :: _ => descendSpec m rest

/-- Modelled from the spec: the classification of the final token against
the children of the node the walk reached. -/
def classifySpec (cur : CommandNode) (finalTok : Str) : CompletionResult :=
  match nodeMatches cur finalTok with
  | [] => .noMatch
  | [m] => .singleMatch m.name
  | ms => .multipleMatches (ms.map CommandNode.name) (lcp (ms.map CommandNode.name))

/-! ## Unfolding lemmas for the well-founded definitions -/

theorem findAux_nil (name : Str) : findAux name [] = none := by
  rw [findAux.eq_def]

theorem findAux_cons (name : Str) (cur : CommandNode) (rest : List CommandNode) :
    findAux name (cur :: rest) =
      if cur.name = name then some cur else findAux name (cur.children ++ rest) := by
  rw [findAux.eq_def]

theorem levelOrderSpec_nil : levelOrderSpec [] = [] := by
  rw [levelOrderSpec.eq_def]

theorem levelOrderSpec_cons (c : CommandNode) (rest : List CommandNode) :
    levelOrderSpec (c :: rest) =
      (c :: rest) ++ levelOrderSpec ((c :: rest).flatMap CommandNode.children) := by
  rw [levelOrderSpec.eq_def]

/-! ## Claim C10 -/

/-- C10: `Namespace` equality is never affirmative.  For all `Namespace`
values `a` and `b` (including the same object, `b = a` with
`sameObject = true`), the comparison `a == b` evaluates to `None` because
`__eq__` returns `NotImplemented` for non-`Namespace` operands and falls
off the end (returning `None`) for `Namespace` operands; in particular it
never returns `True`, so `Namespace` equality is not reflexive. -/
theorem c10_namespace_eq_never_true (a b : PyNamespace) (sameObject : Bool) :
    pyEqOp a b sameObject = PyValue.vNone ∧
    pyEqOp a b sameObject ≠ PyValue.vBool true := by
  refine ⟨rfl, ?_⟩
  simp [pyEqOp, namespaceEqMethod]

/-! ## Claim C9 -/

/-- C9: `add_flag` discards its `metaname` parameter.  Whenever
`add_flag(name, metaname, help)` succeeds, the appended flag `Argument`
has `metaname = None` regardless of the `metaname` passed; consequently,
on a parser whose existing flags all carry `metaname = None` (as every
flag built by `add_flag` does), the duplicate check can only trigger on
the `metaname` comparison when the new `metaname` is itself `None`. -/
theorem c9_add_flag_metaname :
    (∀ (p : CommandParser) (n : String) (m : Option String) (h : String)
       (p' : CommandParser), addFlag p n m h = .ok p' →
         p'.flags = p.flags ++ [⟨ArgKind.flag, n, none, none, h⟩]) ∧
    (∀ (p : CommandParser) (n : String) (m : Option String) (h : String)
       (err : String × String),
       (∀ f ∈ p.flags, f.metaname = none) →
       (∀ f ∈ p.flags, f.name ≠ n) →
       addFlag p n m h = .error err → m = none) := by
  constructor
  · intro p n m h p' hok
    unfold addFlag at hok
    split at hok
    · exact absurd hok (by simp)
    · simp only [Except.ok.injEq] at hok
      subst hok
      rfl
  · intro p n m h err hmeta hname herr
    unfold addFlag at herr
    split at herr
    case isTrue hcond =>
      obtain ⟨f, hf, hor⟩ := List.any_eq_true.mp hcond
      rcases Bool.or_eq_true_iff.mp hor with hn | hm
      · exact absurd (beq_iff_eq.mp hn) (hname f hf)
      · have : f.metaname = m := beq_iff_eq.mp hm
        rw [hmeta f hf] at this
        exact this.symm
    · exact absurd herr (by simp)

def c9P0 : CommandParser :=
  { name := "demo", description := "", epilog := "",
    positionals := [], optionals := [],
    flags := [⟨ArgKind.flag, "v", none, none, "verbose"⟩] }

/-- Witness for C9: a concrete successful `add_flag` call whose passed
`metaname` is `some "WIDE"`, yet the stored flag carries `none`. -/
theorem c9_witness :
    ({ c9P0 with
       flags := c9P0.flags ++ [⟨ArgKind.flag, "w", none, none, "wide"⟩] } :
      CommandParser).flags =
      c9P0.flags ++ [⟨ArgKind.flag, "w", none, none, "wide"⟩] :=
  c9_add_flag_metaname.1 c9P0 "w" (some "WIDE") "wide" _ rfl

/-! ## Claim C4 -/

/-- C4: the history store never exceeds `MAX_HIST_LEN = 20` entries, and
pushing a line equal to the current most-recent entry leaves the store
unchanged (contents and length).  The length hypothesis is the invariant
every reachable console state satisfies (the history starts empty and
only changes through this push). -/
theorem c4_history_bounded_dedup (hist : List Str) (cmdStr : Str)
    (hlen : hist.length ≤ MAX_HIST_LEN) :
    MAX_HIST_LEN = 20 ∧
    (pushHistory hist cmdStr).length ≤ MAX_HIST_LEN ∧
    (hist.head? = some cmdStr → pushHistory hist cmdStr = hist) := by
  refine ⟨rfl, ?_, ?_⟩
  · unfold pushHistory
    split
    · simp only [gt_iff_lt, List.length_cons]
      split
      case isTrue hgt =>
        simp only [List.length_dropLast, List.length_cons]
        omega
      case isFalse hle =>
        simp only [List.length_cons]
        omega
    · exact hlen
  · intro hhead
    unfold pushHistory
    rw [if_neg]
    cases hist with
    | nil => simp at hhead
    | cons a t =>
      simp only [List.head?_cons, Option.some.injEq] at hhead
      simp [hhead]

/-- Witness for C4 at a concrete history and line. -/
theorem c4_witness :
    (pushHistory ["a".toList, "b".toList] "a".toList).length ≤ MAX_HIST_LEN ∧
    pushHistory ["a".toList, "b".toList] "a".toList = ["a".toList, "b".toList] := by
  have h := c4_history_bounded_dedup ["a".toList, "b".toList] "a".toList (by decide)
  exact ⟨h.2.1, h.2.2 (by decide)⟩

/-! ## Claim C8 -/

/-- C8: when tokenization of a committed non-empty line fails
(`shlex.split` raises `ValueError`, e.g. an unclosed quote), the run loop
has already pushed the stripped line to history (subject to the
adjacent-dedup rule in `pushHistory`), and then silently continues to the
next prompt: no exit-keyword check and no dispatch happen, whatever the
line says and whatever commands are registered. -/
theorem c8_tokenize_failure (split : Str → Option (List Str))
    (st : ConsoleSt) (raw : Str)
    (hne : (pyStrip raw).length ≠ 0) (hsplit : split (pyStrip raw) = none) :
    runStep split st raw =
      ({ st with history := pushHistory st.history (pyStrip raw) },
        StepOutcome.continueLoop) := by
  simp only [runStep]
  rw [if_neg hne, hsplit]

/-- Witness for C8: the committed line is `exit "` (an unclosed quote
whose first word is an exit keyword); the line lands in history and the
loop just continues: it neither exits nor dispatches. -/
theorem c8_witness :
    runStep (fun _ => none) { history := [], cmdParsers := [] } "exit \"".toList =
      ({ history := ["exit \"".toList], cmdParsers := [] }, StepOutcome.continueLoop) := by
  have h := c8_tokenize_failure (fun _ => none) { history := [], cmdParsers := [] }
    "exit \"".toList (by decide) rfl
  simpa using h

/-! ## Claim C1 -/

/-- A concrete tokenizer standing in for `shlex.split` on the simple
inputs used below (single words and plain space-separated words). -/
def splitWS : Str → Option (List Str) := fun s => some (s.splitOn ' ')

def c1BoomParser : ArgParser :=
  { prog := "boom".toList, parseOk := fun _ => true,
    action := .raises (.otherExc "ValueError"),
    errorMsg := none, numActionGroups := 2 }

def c1St : ConsoleSt := { history := [], cmdParsers := [c1BoomParser] }

/-- Counterexample to C1 as stated: the line `boom` dispatches to a
registered command, parses successfully, and its bound action raises a
plain `ValueError`.  The `except DispatchError` clause of `run` does not
catch it, so the exception escapes the loop instead of returning to the
Prompting state. -/
theorem c1_counterexample :
    (runStep splitWS c1St "boom".toList).2 =
      StepOutcome.crash (PyExc.otherExc "ValueError") ∧
    (runStep splitWS c1St "boom".toList).2 ≠ StepOutcome.continueLoop := by
  constructor
  · decide
  · decide

/-- C1 (amended): a fault raised by the bound action during its
invocation is caught at the dispatch boundary, reported, and the loop
returns to Prompting only when the fault is a `DispatchError`; any other
fault propagates out of the run loop and terminates it. -/
theorem c1_dispatch_boundary (split : Str → Option (List Str))
    (st : ConsoleSt) (raw : Str) (tok0 : Str) (rest : List Str)
    (p : ArgParser) (e : PyExc)
    (hne : (pyStrip raw).length ≠ 0)
    (hsplit : split (pyStrip raw) = some (tok0 :: rest))
    (hexit : pyUpper tok0 ∉ EXIT_KEYWORDS)
    (hfind : findParser st.cmdParsers tok0 = some p)
    (hparse : p.parseOk rest = true)
    (hact : p.action = .raises e) :
    (runStep split st raw).2 =
      (if e.isDispatchError then StepOutcome.continueLoop
       else StepOutcome.crash e) := by
  simp only [runStep]
  rw [if_neg hne, hsplit]
  simp only [dispatch, List.headD_cons, List.tail_cons, hfind, hparse, if_true, hact]
  rw [if_neg (by simpa using hexit)]
  cases he : e.isDispatchError <;> simp [he]

def c1WParser : ArgParser :=
  { prog := "w".toList, parseOk := fun _ => true,
    action := .raises (.dispatchErr "boom"), errorMsg := none, numActionGroups := 2 }

def c1WSt : ConsoleSt := { history := [], cmdParsers := [c1WParser] }

/-- Witness for the amended C1: an action that raises a `DispatchError`
is caught and the loop continues. -/
theorem c1_witness :
    (runStep splitWS c1WSt "w".toList).2 = StepOutcome.continueLoop := by
  have h := c1_dispatch_boundary splitWS c1WSt "w".toList "w".toList []
    c1WParser (.dispatchErr "boom") (by decide) (by decide) (by decide) rfl rfl rfl
  simpa using h

/-! ## Claim C2 -/

def c2GreetParser : ArgParser :=
  { prog := "greet".toList,
    parseOk := fun args => args.isEmpty,
    action := .ok, errorMsg := none, numActionGroups := 2 }

def c2St : ConsoleSt := { history := [], cmdParsers := [c2GreetParser] }

/-- C2 is the intended behaviour, but the code crashes on its parse-error
path: `_dispatch` catches the `SystemExit` from `parse_args` and then
reads `cmd_parser.error_msg`, an attribute that neither `argparse` nor
`_parse_command` ever sets, so every parse failure raises
`AttributeError` inside the handler.  That exception is not a
`DispatchError`, so it escapes the run loop instead of leaving the caller
with a recoverable result.  Here `greet --bogus` fails to parse (the
`greet` parser accepts no arguments) and the dispatch evaluates to the
`AttributeError`, crashing the loop. -/
theorem c2_parse_failure_crashes :
    dispatch [c2GreetParser] ["greet".toList, "--bogus".toList] =
      Except.error (PyExc.attributeError "error_msg") ∧
    (runStep splitWS c2St "greet --bogus".toList).2 =
      StepOutcome.crash (PyExc.attributeError "error_msg") := by
  constructor
  · rfl
  · decide

/-! ## Claim C5 -/

theorem nsize_pos (c : CommandNode) : 0 < nsize c := by
  cases c with
  | mk n cs => simp only [nsize]; omega

theorem preorderFindList_append (name : Str) (a b : List CommandNode) :
    preorderFindList name (a ++ b) =
      match preorderFindList name a with
      | some r => some r
      | none => preorderFindList name b := by
  induction a with
  | nil => simp [preorderFindList]
  | cons c cs ih =>
    simp only [List.cons_append, preorderFindList]
    cases preorderFind name c <;> simp [ih]

/-- The queue of `find` processes exactly the preorder depth-first
traversal: the queue behaves as a stack whose top holds the subtree
still to be searched. -/
theorem findAux_eq_preorder (name : Str) :
    ∀ (fuel : Nat) (q : List CommandNode), nsizeList q ≤ fuel →
      findAux name q = preorderFindList name q := by
  intro fuel
  induction fuel with
  | zero =>
    intro q hq
    match q with
    | [] => simp [findAux_nil, preorderFindList]
    | c :: rest =>
      exfalso
      have := nsize_pos c
      simp only [nsizeList] at hq
      omega
  | succ n ih =>
    intro q hq
    match q with
    | [] => simp [findAux_nil, preorderFindList]
    | cur :: rest =>
      rw [findAux_cons]
      by_cases hc : cur.name = name
      · rw [if_pos hc]
        cases cur with
        | mk nm cs =>
          simp only [CommandNode.name] at hc
          simp [preorderFindList, preorderFind, hc]
      · rw [if_neg hc]
        have hb : nsizeList (cur.children ++ rest) ≤ n := by
          rw [nsizeList_append]
          have h1 := nsize_children_lt cur
          simp only [nsizeList] at hq
          omega
        rw [ih _ hb, preorderFindList_append]
        cases cur with
        | mk nm cs =>
          simp only [CommandNode.name] at hc
          simp only [preorderFindList, preorderFind, CommandNode.children, if_neg hc]

def c5Tree : CommandNode :=
  .mk [] [.mk ['a'] [.mk ['x'] []], .mk ['x'] [.mk ['y'] []]]

/-- Counterexample to C5 as stated: in `c5Tree` the name `x` appears both
at depth 2 (under `a`) and at depth 1 (the second child of the root, the
one with child `y`).  Level order would find the depth-1 node first, but
`find` returns the depth-2 node: the queue manipulation of `find` inserts
children at the front of the queue, producing a depth-first traversal
(exactly what its own docstring says). -/
theorem c5_counterexample :
    CommandNode.find c5Tree ['x'] = some (.mk ['x'] []) ∧
    bfsFindSpec c5Tree ['x'] = some (.mk ['x'] [.mk ['y'] []]) ∧
    CommandNode.find c5Tree ['x'] ≠ bfsFindSpec c5Tree ['x'] := by
  have h1 : CommandNode.find c5Tree ['x'] = some (.mk ['x'] []) := by
    simp [CommandNode.find, c5Tree, findAux_cons, findAux_nil,
      CommandNode.name, CommandNode.children]
  have hl : levelOrderSpec [c5Tree] =
      [c5Tree, .mk ['a'] [.mk ['x'] []], .mk ['x'] [.mk ['y'] []],
       .mk ['x'] [], .mk ['y'] []] := by
    simp [levelOrderSpec_cons, levelOrderSpec_nil, c5Tree, CommandNode.children]
  have h2 : bfsFindSpec c5Tree ['x'] = some (.mk ['x'] [.mk ['y'] []]) := by
    simp only [bfsFindSpec, hl]
    rfl
  refine ⟨h1, h2, ?_⟩
  rw [h1, h2]
  simp [c5Tree]

/-- C5 (amended): `find(name)` performs a preorder depth-first traversal
from the given root (children visited in their original order) and
returns the first node in that order whose name equals the query, or
`None` when no node in the tree has that name. -/
theorem c5_find_is_dfs (t : CommandNode) (name : Str) :
    CommandNode.find t name = preorderFind name t := by
  unfold CommandNode.find
  rw [findAux_eq_preorder name (nsizeList [t]) [t] le_rfl]
  simp only [preorderFindList]
  cases preorderFind name t <;> simp [preorderFindList]

/-! ## Claim C6 -/

theorem tabMatches_cons_of_ne_nil (cur : CommandNode) (t0 : Str)
    (rest : List Str) (h : rest ≠ []) :
    tabMatches cur (t0 :: rest) =
      match nodeMatches cur t0 with
      | [] => []
      | m :: _ => tabMatches m rest := by
  cases rest with
  | nil => exact absurd rfl h
  | cons a as => rfl

/-- C6: for every command tree and every non-empty token list, the Tab
walk filters the children of the node reached by descending through all
tokens but the last (first prefix match at each step) against the final
token, and classifies the result: `noMatch` when the filter is empty (or
the descent itself dies), `singleMatch` with the full child name when
exactly one child matches, `multipleMatches` with all matching names and
their longest common prefix otherwise.  In particular, completing
`["he"]` against a root with children `help` and `hello` yields
`multipleMatches ["help", "hello"] "hel"`. -/
theorem c6_complete_final_token :
    (∀ (root : CommandNode) (ts : List Str) (t : Str),
       complete root (ts ++ [t]) =
         match descendSpec root ts with
         | none => CompletionResult.noMatch
         | some m => classifySpec m t) ∧
    complete (.mk [] [.mk "help".toList [], .mk "hello".toList []]) ["he".toList] =
      CompletionResult.multipleMatches ["help".toList, "hello".toList] "hel".toList := by
  constructor
  · intro root ts t
    induction ts generalizing root with
    | nil =>
      simp only [List.nil_append, descendSpec]
      rfl
    | cons t0 ts0 ih =>
      have hne : ts0 ++ [t] ≠ [] := by simp
      simp only [List.cons_append]
      unfold complete
      rw [tabMatches_cons_of_ne_nil root t0 (ts0 ++ [t]) hne]
      cases hm : nodeMatches root t0 with
      | nil => simp [descendSpec, hm]
      | cons m ms =>
        have h1 : (match tabMatches m (ts0 ++ [t]) with
            | [] => CompletionResult.noMatch
            | [n] => CompletionResult.singleMatch n.name
            | ns => CompletionResult.multipleMatches (ns.map CommandNode.name)
                (lcp (ns.map CommandNode.name))) = complete m (ts0 ++ [t]) := rfl
        rw [h1, ih m]
        simp [descendSpec, hm]
  · decide

/-! ## Claim C7 -/

theorem foldlMin_le_init (ns : List Str) :
    ∀ a : Nat, ns.foldl (fun m t => min m t.length) a ≤ a := by
  induction ns with
  | nil => intro a; simp
  | cons x xs ih =>
    intro a
    simp only [List.foldl_cons]
    exact le_trans (ih _) (Nat.min_le_left _ _)

theorem foldlMin_le_mem (ns : List Str) (s : Str) (hs : s ∈ ns) :
    ∀ a : Nat, ns.foldl (fun m t => min m t.length) a ≤ s.length := by
  induction ns with
  | nil => simp at hs
  | cons x xs ih =>
    intro a
    simp only [List.foldl_cons]
    rcases List.mem_cons.mp hs with h | h
    · subst h
      exact le_trans (foldlMin_le_init _ _) (Nat.min_le_right _ _)
    · exact ih h _

theorem foldlMin_attained (ns : List Str) :
    ∀ a : Nat, ns.foldl (fun m t => min m t.length) a = a ∨
      ∃ s ∈ ns, ns.foldl (fun m t => min m t.length) a = s.length := by
  induction ns with
  | nil => intro a; left; rfl
  | cons x xs ih =>
    intro a
    simp only [List.foldl_cons]
    rcases ih (min a x.length) with h | ⟨s, hs, h⟩
    · rcases Nat.le_total a x.length with hle | hle
      · left
        rw [h, Nat.min_eq_left hle]
      · right
        exact ⟨x, List.mem_cons_self _ _, by rw [h, Nat.min_eq_right hle]⟩
    · right
      exact ⟨s, List.mem_cons_of_mem _ hs, h⟩

theorem minStrLen_le (s0 : Str) (rest : List Str) (s : Str)
    (hs : s ∈ s0 :: rest) : minStrLen (s0 :: rest) ≤ s.length := by
  rcases List.mem_cons.mp hs with h | h
  · subst h
    exact foldlMin_le_init _ _
  · exact foldlMin_le_mem _ _ h _

theorem minStrLen_attained (s0 : Str) (rest : List Str) :
    ∃ s ∈ s0 :: rest, s.length = minStrLen (s0 :: rest) := by
  rcases foldlMin_attained rest s0.length with h | ⟨s, hs, h⟩
  · exact ⟨s0, List.mem_cons_self _ _, h.symm⟩
  · exact ⟨s, List.mem_cons_of_mem _ hs, h.symm⟩

theorem lcpAllEq_iff (l : List Str) (s0 : Str) (i : Nat) :
    lcpAllEq l s0 i = true ↔ ∀ s ∈ l, s.getD i ' ' = s0.getD i ' ' := by
  simp [lcpAllEq]

theorem lcpAllEq_false (l : List Str) (s0 : Str) (i : Nat)
    (h : lcpAllEq l s0 i = false) : ∃ s ∈ l, s.getD i ' ' ≠ s0.getD i ' ' := by
  by_contra hc
  push_neg at hc
  rw [(lcpAllEq_iff l s0 i).mpr hc] at h
  simp at h

theorem take_eq_of_agree (s s0 : Str) (j : Nat) (hj : j ≤ s.length)
    (hj0 : j ≤ s0.length)
    (hag : ∀ k, k < j → s.getD k ' ' = s0.getD k ' ') :
    s0.take j = s.take j := by
  apply List.ext_getElem
  · simp only [List.length_take]
    omega
  · intro k h1 h2
    have hk : k < j := by
      simp only [List.length_take] at h1
      omega
    rw [List.getElem_take s0, List.getElem_take s]
    have h3 := hag k hk
    rw [List.getD_eq_getElem s ' ' (by omega),
        List.getD_eq_getElem s0 ' ' (by omega)] at h3
    exact h3.symm

theorem getD_of_prefix_lt (p s : Str) (h : p <+: s) (k : Nat)
    (hk : k < p.length) : s.getD k ' ' = p.getD k ' ' := by
  obtain ⟨t, rfl⟩ := h
  rw [List.getD_eq_getElem (p ++ t) ' ' (by simp; omega),
      List.getD_eq_getElem p ' ' hk]
  exact List.getElem_append_left hk

/-- The `_lcp` loop returns `l[0][:j]` where `j` is the first position at
which not all strings agree with `l[0]`, or the minimum length if they
agree everywhere below it. -/
theorem lcpLoop_spec (l : List Str) (s0 : Str) :
    ∀ (rem i : Nat),
      (∀ k, k < i → lcpAllEq l s0 k = true) →
      ∃ j, i ≤ j ∧ j ≤ i + rem ∧ lcpLoop l s0 i rem = s0.take j ∧
        (∀ k, k < j → lcpAllEq l s0 k = true) ∧
        (j < i + rem → lcpAllEq l s0 j = false) := by
  intro rem
  induction rem with
  | zero =>
    intro i hpre
    exact ⟨i, le_rfl, by omega, rfl, hpre, fun hcon => absurd hcon (by omega)⟩
  | succ n ih =>
    intro i hpre
    by_cases h : lcpAllEq l s0 i = true
    · have hpre2 : ∀ k, k < i + 1 → lcpAllEq l s0 k = true := by
        intro k hk
        by_cases hki : k < i
        · exact hpre k hki
        · have hkeq : k = i := by omega
          subst hkeq
          exact h
      obtain ⟨j, h1, h2, h3, h4, h5⟩ := ih (i + 1) hpre2
      refine ⟨j, by omega, by omega, ?_, h4, fun hj => h5 (by omega)⟩
      simpa [lcpLoop, h] using h3
    · have hf : lcpAllEq l s0 i = false := by
        cases hb : lcpAllEq l s0 i
        · rfl
        · exact absurd hb h
      refine ⟨i, le_rfl, by omega, ?_, hpre, fun _ => hf⟩
      simp [lcpLoop, h]

/-- C7: `_lcp` returns the empty string for the empty list and, for every
non-empty list of strings, the longest string that is a prefix of every
element: the result is a common prefix, and no common prefix is longer.
The four concrete examples of the spec are checked verbatim. -/
theorem c7_lcp_correct :
    lcp [] = [] ∧
    (∀ l : List Str, l ≠ [] →
      (∀ s ∈ l, lcp l <+: s) ∧
      (∀ p : Str, (∀ s ∈ l, p <+: s) → p.length ≤ (lcp l).length)) ∧
    lcp ["abc".toList] = "abc".toList ∧
    lcp ["abc".toList, "abd".toList, "ab".toList] = "ab".toList ∧
    lcp ["a".toList, "b".toList] = [] := by
  refine ⟨rfl, ?_, by decide, by decide, by decide⟩
  intro l hl
  cases l with
  | nil => exact absurd rfl hl
  | cons s0 rest =>
    obtain ⟨j, hj0, hjm, heq, hag, hmis⟩ :=
      lcpLoop_spec (s0 :: rest) s0 (minStrLen (s0 :: rest)) 0
        (fun k hk => absurd hk (by omega))
    simp only [Nat.zero_add] at hjm hmis
    have hlcp : lcp (s0 :: rest) = s0.take j := heq
    have hs0len : minStrLen (s0 :: rest) ≤ s0.length :=
      minStrLen_le s0 rest s0 (List.mem_cons_self _ _)
    constructor
    · intro s hs
      have h1 : minStrLen (s0 :: rest) ≤ s.length := minStrLen_le s0 rest s hs
      have hagree : ∀ k, k < j → s.getD k ' ' = s0.getD k ' ' :=
        fun k hk => (lcpAllEq_iff _ _ _).mp (hag k hk) s hs
      rw [hlcp, take_eq_of_agree s s0 j (by omega) (by omega) hagree]
      exact ⟨s.drop j, List.take_append_drop j s⟩
    · intro p hp
      have hplen : (lcp (s0 :: rest)).length = j := by
        rw [hlcp]
        simp only [List.length_take]
        omega
      rw [hplen]
      by_contra hgt
      push_neg at hgt
      rcases Nat.lt_or_ge j (minStrLen (s0 :: rest)) with hlt | hge
      · obtain ⟨s, hs, hne⟩ := lcpAllEq_false _ _ _ (hmis hlt)
        have h1 : s.getD j ' ' = p.getD j ' ' :=
          getD_of_prefix_lt p s (hp s hs) j hgt
        have h2 : s0.getD j ' ' = p.getD j ' ' :=
          getD_of_prefix_lt p s0 (hp s0 (List.mem_cons_self _ _)) j hgt
        exact hne (by rw [h1, h2])
      · obtain ⟨s, hs, hlen⟩ := minStrLen_attained s0 rest
        have hple := (hp s hs).length_le
        omega

/-- Witness for C7 at the concrete list `["abc", "abd", "ab"]`: the
computed prefix is a prefix of every element, and the common prefix
`"ab"` is not longer than it. -/
theorem c7_witness :
    (∀ s ∈ ["abc".toList, "abd".toList, "ab".toList],
       lcp ["abc".toList, "abd".toList, "ab".toList] <+: s) ∧
    ("ab".toList).length ≤ (lcp ["abc".toList, "abd".toList, "ab".toList]).length := by
  have h := c7_lcp_correct.2.1 ["abc".toList, "abd".toList, "ab".toList] (by decide)
  exact ⟨h.1, h.2 "ab".toList (by decide)⟩

/-! ## Claim C3 -/

theorem tabFill_inv (ctx : PromptCtx) (s : PromptState) (parse : List Str)
    (hs : s.cmdIdx ≤ s.cmd.length) :
    (tabFill ctx s parse).cmdIdx ≤ (tabFill ctx s parse).cmd.length := by
  unfold tabFill
  split
  · exact hs
  · split
    · exact hs
    · exact le_rfl
    · exact le_rfl

/-- Every single editing key preserves `cursor <= length(content)`. -/
theorem promptStep_inv (ctx : PromptCtx) (s : PromptState) (k : Key)
    (s' : PromptState) (hstep : promptStep ctx s k = some s')
    (hs : s.cmdIdx ≤ s.cmd.length) : s'.cmdIdx ≤ s'.cmd.length := by
  cases k with
  | char c =>
    simp only [promptStep] at hstep
    split at hstep
    · simp only [Option.some.injEq] at hstep
      subst hstep
      exact hs
    · simp only [Option.some.injEq] at hstep
      subst hstep
      simp only [List.length_append, List.length_take, List.length_cons,
        List.length_drop]
      omega
  | backspace =>
    simp only [promptStep] at hstep
    split at hstep
    · simp only [Option.some.injEq] at hstep
      subst hstep
      exact hs
    · simp only [Option.some.injEq] at hstep
      subst hstep
      simp only [List.length_append, List.length_take, List.length_drop]
      omega
  | left =>
    simp only [promptStep] at hstep
    split at hstep <;>
      (simp only [Option.some.injEq] at hstep; subst hstep)
    · exact hs
    · simp only []
      omega
  | right =>
    simp only [promptStep] at hstep
    split at hstep <;>
      (simp only [Option.some.injEq] at hstep; subst hstep)
    · exact hs
    case isFalse h =>
      simp only []
      omega
  | up =>
    simp only [promptStep] at hstep
    split at hstep <;>
      (simp only [Option.some.injEq] at hstep; subst hstep)
    · exact hs
    · exact le_rfl
  | down =>
    simp only [promptStep] at hstep
    split at hstep <;>
      (simp only [Option.some.injEq] at hstep; subst hstep)
    · exact hs
    · exact le_rfl
  | tab =>
    simp only [promptStep] at hstep
    split at hstep
    · exact absurd hstep (by simp)
    · simp only [Option.some.injEq] at hstep
      subst hstep
      exact tabFill_inv ctx s _ hs

/-- The invariant holds after every prefix of a key sequence. -/
theorem promptRunFrom_inv (ctx : PromptCtx) :
    ∀ (ks : List Key) (s s' : PromptState), s.cmdIdx ≤ s.cmd.length →
      promptRunFrom ctx s ks = some s' → s'.cmdIdx ≤ s'.cmd.length := by
  intro ks
  induction ks with
  | nil =>
    intro s s' hs h
    simp only [promptRunFrom, Option.some.injEq] at h
    subst h
    exact hs
  | cons k ks ih =>
    intro s s' hs h
    simp only [promptRunFrom] at h
    cases hk : promptStep ctx s k with
    | none => rw [hk] at h; simp at h
    | some s1 =>
      rw [hk] at h
      exact ih s1 s' (promptStep_inv ctx s k s1 hk hs) h

/-- C3: for every sequence of key events (printable characters,
Backspace, Left, Right, Tab, Up, Down) processed by the line editor
within one prompt session, `0 <= cursor <= length(content)` holds after
every single key event, starting from the empty buffer with cursor 0
(quantifying over all key lists covers every intermediate state). -/
theorem c3_cursor_invariant (ctx : PromptCtx) (ks : List Key)
    (s : PromptState) (h : promptRun ctx ks = some s) :
    0 ≤ s.cmdIdx ∧ s.cmdIdx ≤ s.cmd.length :=
  ⟨Nat.zero_le _,
    promptRunFrom_inv ctx ks initPromptState s (Nat.le_refl 0) h⟩

def c3Ctx : PromptCtx :=
  { history := [['h', 'i']], rootNode := .mk [] [],
    shlexSplit := fun str => some [str],
    shlexJoin := fun l => l.foldl (fun a b => a ++ b) [] }

/-- Witness for C3: a concrete session typing `ab`, moving left and
erasing; the final state satisfies the invariant. -/
theorem c3_witness :
    promptRun c3Ctx [Key.char 'a', Key.char 'b', Key.left, Key.backspace] =
      some { cmd := ['b'], cmdIdx := 0, cmdCpy := [], histIdx := -1 } ∧
    0 ≤ (0 : Nat) ∧ (0 : Nat) ≤ ([('b' : Char)] : Str).length := by
  refine ⟨by decide, ?_⟩
  exact c3_cursor_invariant c3Ctx [Key.char 'a', Key.char 'b', Key.left, Key.backspace]
    { cmd := ['b'], cmdIdx := 0, cmdCpy := [], histIdx := -1 } (by decide)
